import Mathlib

/-!
Shallow embedding of the `Board` component of the shakmaty chess library
(`src/board.rs`), together with models of the external collaborators the
spec declares out of scope (the bit-set-of-squares abstraction and the
attack-table service), and proofs of the specified properties.
-/

/-- A square of the board, addressed 0–63 (file = index mod 8, rank = index div 8). -/
abbrev Square := Fin 64

/-- Modelled from the spec: the external bit-set-of-squares abstraction
(a 64-bit set where bit i denotes membership of square i), represented as a
finite set of squares.  Bitwise and/or/xor on the `u64` correspond exactly to
intersection/union/symmetric difference of the sets of set bits. -/
abbrev Bitboard := Finset Square

namespace Bitboard

/-- Modelled from the spec: `Bitboard::toggle` flips one bit (`self.0 ^= 1 << sq`). -/
def toggle (s : Bitboard) (sq : Square) : Bitboard :=
  if sq ∈ s then s.erase sq else insert sq s

/-- Modelled from the spec: `Bitboard::discard` unconditionally clears one bit. -/
def discard (s : Bitboard) (sq : Square) : Bitboard := s.erase sq

/-- Modelled from the spec: `Bitboard::is_disjoint` (`self.0 & other.0 == 0`). -/
def is_disjoint (s t : Bitboard) : Prop := s ∩ t = ∅

instance : DecidablePred fun p : Bitboard × Bitboard => is_disjoint p.1 p.2 :=
  fun p => by unfold is_disjoint; infer_instance

/-- Modelled from the spec: bitwise xor of two bitboards, i.e. symmetric difference. -/
def bxor (s t : Bitboard) : Bitboard := (s \ t) ∪ (t \ s)

/-- Modelled from the spec: population count of the set. -/
def count (s : Bitboard) : Nat := s.card

/-- Modelled from the spec: extremal-element extraction, lowest-numbered member. -/
def first (s : Bitboard) : Option Square :=
  if h : s.Nonempty then some (s.min' h) else none

/-- Modelled from the spec: extremal-element extraction, highest-numbered member. -/
def last (s : Bitboard) : Option Square :=
  if h : s.Nonempty then some (s.max' h) else none

/-- Modelled from the spec: `single_square` yields the unique member of a
one-element set and absence otherwise. -/
def single_square (s : Bitboard) : Option Square :=
  if h : s.card = 1 then
    some (s.min' (Finset.card_pos.mp (h ▸ Nat.one_pos)))
  else none

end Bitboard

/-- The file (column) of a square. -/
def fileOf (sq : Square) : Nat := (sq : Nat) % 8

/-- The rank (row) of a square. -/
def rankOf (sq : Square) : Nat := (sq : Nat) / 8

/-- Build a square from file and rank coordinates below 8. -/
def mkSquare (f r : Nat) (hf : f < 8) (hr : r < 8) : Square :=
  ⟨f + 8 * r, by omega⟩

/-- Modelled from the spec: flip vertical swaps rank r with rank 7−r. -/
def flipVerticalSq (sq : Square) : Square :=
  ⟨fileOf sq + 8 * (7 - rankOf sq), by unfold fileOf rankOf; omega⟩

/-- Modelled from the spec: flip horizontal swaps file c with file 7−c. -/
def flipHorizontalSq (sq : Square) : Square :=
  ⟨(7 - fileOf sq) + 8 * rankOf sq, by unfold fileOf rankOf; omega⟩

/-- Modelled from the spec: flip on the primary (a1–h8) diagonal, i.e. transpose. -/
def flipDiagonalSq (sq : Square) : Square :=
  ⟨rankOf sq + 8 * fileOf sq, by unfold fileOf rankOf; omega⟩

/-- Modelled from the spec: flip on the anti (h1–a8) diagonal. -/
def flipAntiDiagonalSq (sq : Square) : Square :=
  ⟨(7 - rankOf sq) + 8 * (7 - fileOf sq), by unfold fileOf rankOf; omega⟩

/-- Modelled from the spec: rotate 90° clockwise, a composition of two flips. -/
def rotate90Sq (sq : Square) : Square := flipVerticalSq (flipDiagonalSq sq)

/-- Modelled from the spec: rotate 180°, a composition of two flips. -/
def rotate180Sq (sq : Square) : Square := flipHorizontalSq (flipVerticalSq sq)

/-- Modelled from the spec: rotate 270° clockwise, a composition of two flips. -/
def rotate270Sq (sq : Square) : Square := flipDiagonalSq (flipVerticalSq sq)

namespace Bitboard

/-- Modelled from the spec: `Bitboard::flip_vertical`, the whole-set bijection. -/
def flip_vertical (s : Bitboard) : Bitboard := s.image flipVerticalSq

/-- Modelled from the spec: `Bitboard::flip_horizontal`. -/
def flip_horizontal (s : Bitboard) : Bitboard := s.image flipHorizontalSq

/-- Modelled from the spec: `Bitboard::flip_diagonal`. -/
def flip_diagonal (s : Bitboard) : Bitboard := s.image flipDiagonalSq

/-- Modelled from the spec: `Bitboard::flip_anti_diagonal`. -/
def flip_anti_diagonal (s : Bitboard) : Bitboard := s.image flipAntiDiagonalSq

/-- Modelled from the spec: `Bitboard::rotate_90`. -/
def rotate_90 (s : Bitboard) : Bitboard := s.image rotate90Sq

/-- Modelled from the spec: `Bitboard::rotate_180`. -/
def rotate_180 (s : Bitboard) : Bitboard := s.image rotate180Sq

/-- Modelled from the spec: `Bitboard::rotate_270`. -/
def rotate_270 (s : Bitboard) : Bitboard := s.image rotate270Sq

end Bitboard

/-- A piece's movement class. -/
inductive Role
  | pawn | knight | bishop | rook | queen | king
deriving DecidableEq, Fintype

/-- The owning side. -/
inductive Color
  | black | white
deriving DecidableEq, Fintype

/-- `Color::from_white`. -/
def Color.from_white (w : Bool) : Color := if w then .white else .black

/-- The complement operator on colors (`!color` in Rust). -/
def Color.other : Color → Color
  | .black => .white
  | .white => .black

/-- A piece: a (color, role) pair. -/
structure Piece where
  color : Color
  role : Role
deriving DecidableEq

/-- Fixed enumeration-keyed container with one slot per role. -/
structure ByRole (α : Type) where
  pawn : α
  knight : α
  bishop : α
  rook : α
  queen : α
  king : α
deriving DecidableEq

namespace ByRole

variable {α : Type}

/-- `ByRole::get`. -/
def get (t : ByRole α) : Role → α
  | .pawn => t.pawn
  | .knight => t.knight
  | .bishop => t.bishop
  | .rook => t.rook
  | .queen => t.queen
  | .king => t.king

/-- In-place update of one slot (`ByRole::get_mut` followed by a write). -/
def update (t : ByRole α) (r : Role) (f : α → α) : ByRole α :=
  match r with
  | .pawn => { t with pawn := f t.pawn }
  | .knight => { t with knight := f t.knight }
  | .bishop => { t with bishop := f t.bishop }
  | .rook => { t with rook := f t.rook }
  | .queen => { t with queen := f t.queen }
  | .king => { t with king := f t.king }

/-- `ByRole::map` / `as_mut().for_each` applying one function to every slot. -/
def map {β : Type} (f : α → β) (t : ByRole α) : ByRole β :=
  ⟨f t.pawn, f t.knight, f t.bishop, f t.rook, f t.queen, f t.king⟩

/-- `ByRole::find`: the first role (in declaration order) whose slot satisfies
the predicate. -/
def find (t : ByRole α) (p : α → Bool) : Option Role :=
  if p t.pawn then some .pawn
  else if p t.knight then some .knight
  else if p t.bishop then some .bishop
  else if p t.rook then some .rook
  else if p t.queen then some .queen
  else if p t.king then some .king
  else none

/-- The union of all six role slots (the accumulated `occupied` of
`from_bitboards`). -/
def union6 (t : ByRole Bitboard) : Bitboard :=
  t.pawn ∪ t.knight ∪ t.bishop ∪ t.rook ∪ t.queen ∪ t.king

end ByRole

/-- Fixed enumeration-keyed container with one slot per color. -/
structure ByColor (α : Type) where
  black : α
  white : α
deriving DecidableEq

namespace ByColor

variable {α : Type}

/-- `ByColor::get`. -/
def get (t : ByColor α) : Color → α
  | .black => t.black
  | .white => t.white

/-- In-place update of one slot. -/
def update (t : ByColor α) (c : Color) (f : α → α) : ByColor α :=
  match c with
  | .black => { t with black := f t.black }
  | .white => { t with white := f t.white }

/-- Map over both slots. -/
def map {β : Type} (f : α → β) (t : ByColor α) : ByColor β :=
  ⟨f t.black, f t.white⟩

/-- `ByColor::find`: the first color (in declaration order) whose slot
satisfies the predicate. -/
def find (t : ByColor α) (p : α → Bool) : Option Color :=
  if p t.black then some .black
  else if p t.white then some .white
  else none

end ByColor

/-- Piece positions on a board: one bit-set per role, one per color, plus the
cached union `occupied`. -/
structure Board where
  by_role : ByRole Bitboard
  by_color : ByColor Bitboard
  occupied : Bitboard
deriving DecidableEq

namespace Board

/-- `Board::empty`. -/
def empty : Board :=
  { by_role := ⟨∅, ∅, ∅, ∅, ∅, ∅⟩
    by_color := ⟨∅, ∅⟩
    occupied := ∅ }

/-- Accumulation loop of `from_bitboards`: starting from the empty set, each
role set must be disjoint from the squares accumulated so far, then is
or-ed in; a failed assertion is a fatal abort, modelled as `none`. -/
def accRoles : List Bitboard → Bitboard → Option Bitboard
  | [], occ => some occ
  | r :: rs, occ => if occ ∩ r = ∅ then accRoles rs (occ ∪ r) else none

/-- `Board::from_bitboards`.  The Rust function panics when an assertion
fails; the panic is modelled as `none`. -/
def from_bitboards (br : ByRole Bitboard) (bc : ByColor Bitboard) : Option Board :=
  match accRoles [br.pawn, br.knight, br.bishop, br.rook, br.queen, br.king] ∅ with
  | none => none
  | some occ =>
    if bc.black ∩ bc.white = ∅ then
      if occ = bc.black ∪ bc.white then
        some { by_role := br, by_color := bc, occupied := occ }
      else none
    else none

/-- `Board::sliders`: `bishop ^ rook ^ queen`. -/
def sliders (b : Board) : Bitboard :=
  (b.by_role.bishop.bxor b.by_role.rook).bxor b.by_role.queen

/-- `Board::steppers`: `pawn ^ knight ^ king`. -/
def steppers (b : Board) : Bitboard :=
  (b.by_role.pawn.bxor b.by_role.knight).bxor b.by_role.king

/-- `Board::rooks_and_queens`: `rook ^ queen`. -/
def rooks_and_queens (b : Board) : Bitboard :=
  b.by_role.rook.bxor b.by_role.queen

/-- `Board::bishops_and_queens`: `bishop ^ queen`. -/
def bishops_and_queens (b : Board) : Bitboard :=
  b.by_role.bishop.bxor b.by_role.queen

/-- The `by_color(color)` accessor method of `Board`. -/
def color_bb (b : Board) (c : Color) : Bitboard := b.by_color.get c

/-- The `by_role(role)` accessor method of `Board`. -/
def role_bb (b : Board) (r : Role) : Bitboard := b.by_role.get r

/-- `Board::king_of`. -/
def king_of (b : Board) (c : Color) : Option Square :=
  (b.by_role.king ∩ b.color_bb c).single_square

/-- `Board::color_at`. -/
def color_at (b : Board) (sq : Square) : Option Color :=
  b.by_color.find fun c => decide (sq ∈ c)

/-- `Board::role_at`: short-circuits to `none` when the square is outside
`occupied`. -/
def role_at (b : Board) (sq : Square) : Option Role :=
  if sq ∉ b.occupied then none
  else b.by_role.find fun r => decide (sq ∈ r)

/-- `Board::piece_at`. -/
def piece_at (b : Board) (sq : Square) : Option Piece :=
  (b.role_at sq).map fun role =>
    { color := Color.from_white (decide (sq ∈ b.by_color.white)), role := role }

/-- `Board::remove_piece_at`: the returned value together with the board
after the mutation. -/
def remove_piece_at (b : Board) (sq : Square) : Option Piece × Board :=
  match b.piece_at sq with
  | some p =>
      (some p,
        { by_role := b.by_role.update p.role fun s => s.toggle sq
          by_color := b.by_color.update p.color fun s => s.toggle sq
          occupied := b.occupied.toggle sq })
  | none => (none, b)

/-- `Board::discard_piece_at`. -/
def discard_piece_at (b : Board) (sq : Square) : Board :=
  { by_role := b.by_role.map fun s => s.discard sq
    by_color := b.by_color.map fun s => s.discard sq
    occupied := b.occupied.discard sq }

/-- `Board::set_piece_at`. -/
def set_piece_at (b : Board) (sq : Square) (p : Piece) : Board :=
  let b1 := b.discard_piece_at sq
  { by_role := b1.by_role.update p.role fun s => s.toggle sq
    by_color := b1.by_color.update p.color fun s => s.toggle sq
    occupied := b1.occupied.toggle sq }

/-- The private `Board::transform` primitive: applies one function to every
role-set and every color-set, then recomputes `occupied` from the transformed
color-sets. -/
def transform (b : Board) (f : Bitboard → Bitboard) : Board :=
  let br := b.by_role.map f
  let bc := b.by_color.map f
  { by_role := br, by_color := bc, occupied := bc.white ∪ bc.black }

/-- `Board::flip_vertical`. -/
def flip_vertical (b : Board) : Board := b.transform Bitboard.flip_vertical

/-- `Board::flip_horizontal`. -/
def flip_horizontal (b : Board) : Board := b.transform Bitboard.flip_horizontal

/-- `Board::flip_diagonal`. -/
def flip_diagonal (b : Board) : Board := b.transform Bitboard.flip_diagonal

/-- `Board::flip_anti_diagonal`. -/
def flip_anti_diagonal (b : Board) : Board := b.transform Bitboard.flip_anti_diagonal

/-- `Board::rotate_90`. -/
def rotate_90 (b : Board) : Board := b.transform Bitboard.rotate_90

/-- `Board::rotate_180`. -/
def rotate_180 (b : Board) : Board := b.transform Bitboard.rotate_180

/-- `Board::rotate_270`. -/
def rotate_270 (b : Board) : Board := b.transform Bitboard.rotate_270

/-- `Board::pop_front`. -/
def pop_front (b : Board) : Option (Square × Piece) × Board :=
  match b.occupied.first with
  | none => (none, b)
  | some sq =>
    match b.remove_piece_at sq with
    | (none, b') => (none, b')
    | (some p, b') => (some (sq, p), b')

/-- `Board::pop_back`. -/
def pop_back (b : Board) : Option (Square × Piece) × Board :=
  match b.occupied.last with
  | none => (none, b)
  | some sq =>
    match b.remove_piece_at sq with
    | (none, b') => (none, b')
    | (some p, b') => (some (sq, p), b')

/-- `Extend for Board`: apply `set_piece_at` once per pair in sequence order. -/
def extend (b : Board) (xs : List (Square × Piece)) : Board :=
  xs.foldl (fun bd x => bd.set_piece_at x.1 x.2) b

end Board

/-! ## Attack-table service (modelled) -/

/-- Modelled from the spec: a rook on `sq` attacks `t` along a clear rank or
file — same file or rank, distinct, and no occupant strictly between. -/
def rookLineClear (sq t : Square) (occ : Bitboard) : Prop :=
  t ≠ sq ∧
    ((fileOf t = fileOf sq ∧ ∀ u : Square, fileOf u = fileOf sq →
        min (rankOf sq) (rankOf t) < rankOf u → rankOf u < max (rankOf sq) (rankOf t) →
        u ∉ occ)
     ∨ (rankOf t = rankOf sq ∧ ∀ u : Square, rankOf u = rankOf sq →
        min (fileOf sq) (fileOf t) < fileOf u → fileOf u < max (fileOf sq) (fileOf t) →
        u ∉ occ))

instance (sq t : Square) (occ : Bitboard) : Decidable (rookLineClear sq t occ) := by
  unfold rookLineClear; infer_instance

/-- Modelled from the spec: a bishop on `sq` attacks `t` along a clear
diagonal — same diagonal or anti-diagonal, distinct, no occupant strictly
between. -/
def bishopLineClear (sq t : Square) (occ : Bitboard) : Prop :=
  t ≠ sq ∧
    ((fileOf t + rankOf sq = fileOf sq + rankOf t ∧
        ∀ u : Square, fileOf u + rankOf sq = fileOf sq + rankOf u →
        min (fileOf sq) (fileOf t) < fileOf u → fileOf u < max (fileOf sq) (fileOf t) →
        u ∉ occ)
     ∨ (fileOf t + rankOf t = fileOf sq + rankOf sq ∧
        ∀ u : Square, fileOf u + rankOf u = fileOf sq + rankOf sq →
        min (fileOf sq) (fileOf t) < fileOf u → fileOf u < max (fileOf sq) (fileOf t) →
        u ∉ occ))

instance (sq t : Square) (occ : Bitboard) : Decidable (bishopLineClear sq t occ) := by
  unfold bishopLineClear; infer_instance

namespace attacks

/-- Modelled from the spec: `attacks::rook_attacks(sq, occupied)`. -/
def rook_attacks (sq : Square) (occ : Bitboard) : Bitboard :=
  Finset.univ.filter fun t => rookLineClear sq t occ

/-- Modelled from the spec: `attacks::bishop_attacks(sq, occupied)`. -/
def bishop_attacks (sq : Square) (occ : Bitboard) : Bitboard :=
  Finset.univ.filter fun t => bishopLineClear sq t occ

/-- Modelled from the spec: `attacks::knight_attacks(sq)`. -/
def knight_attacks (sq : Square) : Bitboard :=
  Finset.univ.filter fun t =>
    ((fileOf t : Int) - fileOf sq).natAbs * ((rankOf t : Int) - rankOf sq).natAbs = 2

/-- Modelled from the spec: `attacks::king_attacks(sq)`. -/
def king_attacks (sq : Square) : Bitboard :=
  Finset.univ.filter fun t =>
    t ≠ sq ∧ ((fileOf t : Int) - fileOf sq).natAbs ≤ 1 ∧
      ((rankOf t : Int) - rankOf sq).natAbs ≤ 1

/-- Modelled from the spec: `attacks::pawn_attacks(color, sq)` — the squares a
pawn of the given color on `sq` attacks (one rank forward, one file aside). -/
def pawn_attacks (c : Color) (sq : Square) : Bitboard :=
  Finset.univ.filter fun t =>
    ((fileOf t : Int) - fileOf sq).natAbs = 1 ∧
      (rankOf t : Int) - rankOf sq = (match c with | .white => 1 | .black => -1)

end attacks

/-- `Board::attacks_to`, translated from the source. -/
def Board.attacks_to (b : Board) (sq : Square) (attacker : Color) (occupied : Bitboard) :
    Bitboard :=
  b.color_bb attacker ∩
    ((attacks.rook_attacks sq occupied ∩ b.rooks_and_queens) ∪
     (attacks.bishop_attacks sq occupied ∩ b.bishops_and_queens) ∪
     (attacks.knight_attacks sq ∩ b.by_role.knight) ∪
     (attacks.king_attacks sq ∩ b.by_role.king) ∪
     (attacks.pawn_attacks attacker.other sq ∩ b.by_role.pawn))

/-! ## The invariants I1–I4 -/

/-- I1: role-sets are pairwise disjoint. -/
def Board.inv1 (b : Board) : Prop :=
  ∀ r r' : Role, r ≠ r' → b.by_role.get r ∩ b.by_role.get r' = ∅

/-- I2: the two color-sets are disjoint. -/
def Board.inv2 (b : Board) : Prop := b.by_color.white ∩ b.by_color.black = ∅

/-- I3: `occupied` equals the union of the color-sets and the union of the
role-sets. -/
def Board.inv3 (b : Board) : Prop :=
  b.occupied = b.by_color.white ∪ b.by_color.black ∧ b.occupied = b.by_role.union6

/-- I4: each occupied square lies in exactly one role-set and exactly one
color-set. -/
def Board.inv4 (b : Board) : Prop :=
  ∀ sq ∈ b.occupied,
    (∃! r : Role, sq ∈ b.by_role.get r) ∧ (∃! c : Color, sq ∈ b.by_color.get c)

/-- A valid board satisfies all four invariants. -/
def Board.Valid (b : Board) : Prop := b.inv1 ∧ b.inv2 ∧ b.inv3 ∧ b.inv4

instance (b : Board) : Decidable b.inv1 := by unfold Board.inv1; infer_instance
instance (b : Board) : Decidable b.inv2 := by unfold Board.inv2; infer_instance
instance (b : Board) : Decidable b.inv3 := by unfold Board.inv3; infer_instance
instance (b : Board) : Decidable b.inv4 := by unfold Board.inv4 ExistsUnique; infer_instance
instance (b : Board) : Decidable b.Valid := by unfold Board.Valid; infer_instance

/-! ## Basic membership lemmas -/

theorem Bitboard.mem_toggle {s : Bitboard} {sq t : Square} :
    t ∈ s.toggle sq ↔ ((t = sq ∧ sq ∉ s) ∨ (t ≠ sq ∧ t ∈ s)) := by
  unfold Bitboard.toggle
  by_cases hs : sq ∈ s
  · rw [if_pos hs]
    by_cases ht : t = sq <;> simp [Finset.mem_erase, ht, hs]
  · rw [if_neg hs]
    by_cases ht : t = sq <;> simp [Finset.mem_insert, ht, hs]

theorem Bitboard.mem_discard {s : Bitboard} {sq t : Square} :
    t ∈ s.discard sq ↔ (t ≠ sq ∧ t ∈ s) := Finset.mem_erase

theorem Bitboard.toggle_eq_erase {s : Bitboard} {sq : Square} (h : sq ∈ s) :
    s.toggle sq = s.erase sq := if_pos h

theorem Bitboard.toggle_eq_insert {s : Bitboard} {sq : Square} (h : sq ∉ s) :
    s.toggle sq = insert sq s := if_neg h

theorem Bitboard.mem_bxor {s u : Bitboard} {t : Square} :
    t ∈ s.bxor u ↔ ((t ∈ s ∧ t ∉ u) ∨ (t ∈ u ∧ t ∉ s)) := by
  simp [Bitboard.bxor, Finset.mem_union, Finset.mem_sdiff]

theorem ByRole.get_update {α : Type} (t : ByRole α) (r r' : Role) (f : α → α) :
    (t.update r f).get r' = if r' = r then f (t.get r') else t.get r' := by
  cases r <;> cases r' <;> simp [ByRole.update, ByRole.get]

theorem ByRole.get_map {α β : Type} (f : α → β) (t : ByRole α) (r : Role) :
    (ByRole.map f t).get r = f (t.get r) := by
  cases r <;> rfl

theorem ByColor.get_update_eq {α : Type} (t : ByColor α) (c c' : Color) (f : α → α) :
    (t.update c f).get c' = if c' = c then f (t.get c') else t.get c' := by
  cases c <;> cases c' <;> simp [ByColor.update, ByColor.get]

theorem ByColor.get_map_eq {α β : Type} (f : α → β) (t : ByColor α) (c : Color) :
    (ByColor.map f t).get c = f (t.get c) := by
  cases c <;> rfl

theorem ByRole.mem_union6 (t : ByRole Bitboard) (a : Square) :
    a ∈ t.union6 ↔ ∃ r : Role, a ∈ t.get r := by
  constructor
  · intro h
    simp only [ByRole.union6, Finset.mem_union] at h
    rcases h with ((((h | h) | h) | h) | h) | h
    exacts [⟨.pawn, h⟩, ⟨.knight, h⟩, ⟨.bishop, h⟩, ⟨.rook, h⟩, ⟨.queen, h⟩, ⟨.king, h⟩]
  · rintro ⟨r, h⟩
    simp only [ByRole.union6, Finset.mem_union]
    cases r <;> simp [ByRole.get] at h <;> tauto

theorem inter_empty_not_mem {s t : Bitboard} (h : s ∩ t = ∅) {a : Square} (ha : a ∈ s) :
    a ∉ t := fun hb =>
  Finset.eq_empty_iff_forall_not_mem.mp h a (Finset.mem_inter.mpr ⟨ha, hb⟩)

theorem ByColor.get_black_eq {α : Type} (t : ByColor α) : t.get .black = t.black := rfl

theorem ByColor.get_white_eq {α : Type} (t : ByColor α) : t.get .white = t.white := rfl

/-! ## Membership characterizations of the mutations -/

theorem Board.discard_roleGet (b : Board) (sq : Square) (r : Role) (t : Square) :
    t ∈ (b.discard_piece_at sq).by_role.get r ↔ (t ≠ sq ∧ t ∈ b.by_role.get r) := by
  show t ∈ (ByRole.map (fun s => s.discard sq) b.by_role).get r ↔ _
  rw [ByRole.get_map]
  exact Finset.mem_erase

theorem Board.discard_colorGet (b : Board) (sq : Square) (c : Color) (t : Square) :
    t ∈ (b.discard_piece_at sq).by_color.get c ↔ (t ≠ sq ∧ t ∈ b.by_color.get c) := by
  show t ∈ (ByColor.map (fun s => s.discard sq) b.by_color).get c ↔ _
  rw [ByColor.get_map_eq]
  exact Finset.mem_erase

theorem Board.mem_discard_occupied (b : Board) (sq : Square) (t : Square) :
    t ∈ (b.discard_piece_at sq).occupied ↔ (t ≠ sq ∧ t ∈ b.occupied) :=
  Finset.mem_erase

theorem Board.set_roleGet (b : Board) (sq : Square) (p : Piece) (r : Role) (t : Square) :
    t ∈ (b.set_piece_at sq p).by_role.get r ↔
      ((t = sq ∧ r = p.role) ∨ (t ≠ sq ∧ t ∈ b.by_role.get r)) := by
  show t ∈ ((b.discard_piece_at sq).by_role.update p.role fun s => s.toggle sq).get r ↔ _
  rw [ByRole.get_update]
  have hget : (b.discard_piece_at sq).by_role.get r = (b.by_role.get r).erase sq := by
    show (ByRole.map (fun s => s.discard sq) b.by_role).get r = _
    rw [ByRole.get_map]; rfl
  by_cases hr : r = p.role
  · rw [if_pos hr, hget, Bitboard.toggle_eq_insert (Finset.not_mem_erase _ _)]
    by_cases ht : t = sq <;> simp [ht, hr, Finset.mem_insert, Finset.mem_erase]
  · rw [if_neg hr, hget]
    simp [Finset.mem_erase, hr]

theorem Board.set_colorGet (b : Board) (sq : Square) (p : Piece) (c : Color) (t : Square) :
    t ∈ (b.set_piece_at sq p).by_color.get c ↔
      ((t = sq ∧ c = p.color) ∨ (t ≠ sq ∧ t ∈ b.by_color.get c)) := by
  show t ∈ ((b.discard_piece_at sq).by_color.update p.color fun s => s.toggle sq).get c ↔ _
  rw [ByColor.get_update_eq]
  have hget : (b.discard_piece_at sq).by_color.get c = (b.by_color.get c).erase sq := by
    show (ByColor.map (fun s => s.discard sq) b.by_color).get c = _
    rw [ByColor.get_map_eq]; rfl
  by_cases hc : c = p.color
  · rw [if_pos hc, hget, Bitboard.toggle_eq_insert (Finset.not_mem_erase _ _)]
    by_cases ht : t = sq <;> simp [ht, hc, Finset.mem_insert, Finset.mem_erase]
  · rw [if_neg hc, hget]
    simp [Finset.mem_erase, hc]

theorem Board.mem_set_occupied (b : Board) (sq : Square) (p : Piece) (t : Square) :
    t ∈ (b.set_piece_at sq p).occupied ↔ (t = sq ∨ (t ≠ sq ∧ t ∈ b.occupied)) := by
  show t ∈ Bitboard.toggle (b.occupied.erase sq) sq ↔ _
  rw [Bitboard.toggle_eq_insert (Finset.not_mem_erase _ _)]
  by_cases ht : t = sq <;> simp [ht, Finset.mem_insert, Finset.mem_erase]

/-! ## Deriving I4 and the validity of the mutated boards -/

theorem Board.valid_of {b : Board} (h1 : b.inv1) (h2 : b.inv2) (h3 : b.inv3) : b.Valid := by
  refine ⟨h1, h2, h3, ?_⟩
  intro sq hsq
  constructor
  · have hu : sq ∈ b.by_role.union6 := h3.2 ▸ hsq
    obtain ⟨r, hr⟩ := (ByRole.mem_union6 _ _).mp hu
    refine ⟨r, hr, ?_⟩
    intro r' hr'
    by_contra hne
    exact inter_empty_not_mem (h1 r' r hne) hr' hr
  · have hu : sq ∈ b.by_color.white ∪ b.by_color.black := h3.1 ▸ hsq
    rcases Finset.mem_union.mp hu with hw | hbk
    · refine ⟨.white, hw, ?_⟩
      intro c' hc'
      cases c' with
      | white => rfl
      | black => exact absurd hc' (inter_empty_not_mem h2 hw)
    · refine ⟨.black, hbk, ?_⟩
      intro c' hc'
      cases c' with
      | black => rfl
      | white => exact absurd hbk (inter_empty_not_mem h2 hc')

theorem Board.set_valid (b : Board) (sq : Square) (p : Piece) (hb : b.Valid) :
    (b.set_piece_at sq p).Valid := by
  obtain ⟨h1, h2, h3, -⟩ := hb
  apply Board.valid_of
  · intro r r' hne
    apply Finset.eq_empty_iff_forall_not_mem.mpr
    intro t ht
    rw [Finset.mem_inter, Board.set_roleGet, Board.set_roleGet] at ht
    rcases ht with ⟨hA | hA, hB | hB⟩
    · exact hne (hA.2.trans hB.2.symm)
    · exact hB.1 hA.1
    · exact hA.1 hB.1
    · exact inter_empty_not_mem (h1 r r' hne) hA.2 hB.2
  · apply Finset.eq_empty_iff_forall_not_mem.mpr
    intro t ht
    rw [Finset.mem_inter, ← ByColor.get_white_eq, ← ByColor.get_black_eq,
      Board.set_colorGet, Board.set_colorGet] at ht
    rcases ht with ⟨hA | hA, hB | hB⟩
    · exact Color.noConfusion (hA.2.trans hB.2.symm)
    · exact hB.1 hA.1
    · exact hA.1 hB.1
    · exact inter_empty_not_mem h2 (by rw [ByColor.get_white_eq] at hA; exact hA.2)
        (by rw [ByColor.get_black_eq] at hB; exact hB.2)
  · constructor
    · apply Finset.ext
      intro t
      rw [Board.mem_set_occupied, Finset.mem_union, ← ByColor.get_white_eq,
        ← ByColor.get_black_eq, Board.set_colorGet, Board.set_colorGet]
      have hocc : t ∈ b.occupied ↔ t ∈ b.by_color.get .white ∨ t ∈ b.by_color.get .black := by
        rw [ByColor.get_white_eq, ByColor.get_black_eq, h3.1, Finset.mem_union]
      by_cases ht : t = sq
      · subst ht
        cases hc : p.color <;> simp [hc]
      · simp only [ht, false_and, false_or, true_and, ne_eq, not_false_iff]
        exact hocc
    · apply Finset.ext
      intro t
      rw [Board.mem_set_occupied, ByRole.mem_union6]
      have hocc : t ∈ b.occupied ↔ ∃ r, t ∈ b.by_role.get r := by
        rw [h3.2, ByRole.mem_union6]
      constructor
      · rintro (rfl | ⟨hne, hmem⟩)
        · exact ⟨p.role, (Board.set_roleGet b t p p.role t).mpr (Or.inl ⟨rfl, rfl⟩)⟩
        · obtain ⟨r, hr⟩ := hocc.mp hmem
          exact ⟨r, (Board.set_roleGet b sq p r t).mpr (Or.inr ⟨hne, hr⟩)⟩
      · rintro ⟨r, hr⟩
        rw [Board.set_roleGet] at hr
        rcases hr with ⟨rfl, -⟩ | ⟨hne, hr⟩
        · exact Or.inl rfl
        · exact Or.inr ⟨hne, hocc.mpr ⟨r, hr⟩⟩

theorem Board.discard_valid (b : Board) (sq : Square) (hb : b.Valid) :
    (b.discard_piece_at sq).Valid := by
  obtain ⟨h1, h2, h3, -⟩ := hb
  apply Board.valid_of
  · intro r r' hne
    apply Finset.eq_empty_iff_forall_not_mem.mpr
    intro t ht
    rw [Finset.mem_inter, Board.discard_roleGet, Board.discard_roleGet] at ht
    exact inter_empty_not_mem (h1 r r' hne) ht.1.2 ht.2.2
  · apply Finset.eq_empty_iff_forall_not_mem.mpr
    intro t ht
    rw [Finset.mem_inter, ← ByColor.get_white_eq, ← ByColor.get_black_eq,
      Board.discard_colorGet, Board.discard_colorGet] at ht
    exact inter_empty_not_mem h2 (by rw [ByColor.get_white_eq] at ht; exact ht.1.2)
      (by rw [ByColor.get_black_eq] at ht; exact ht.2.2)
  · constructor
    · apply Finset.ext
      intro t
      rw [Board.mem_discard_occupied, Finset.mem_union, ← ByColor.get_white_eq,
        ← ByColor.get_black_eq, Board.discard_colorGet, Board.discard_colorGet]
      have hocc : t ∈ b.occupied ↔ t ∈ b.by_color.get .white ∨ t ∈ b.by_color.get .black := by
        rw [ByColor.get_white_eq, ByColor.get_black_eq, h3.1, Finset.mem_union]
      rw [hocc]
      tauto
    · apply Finset.ext
      intro t
      rw [Board.mem_discard_occupied, ByRole.mem_union6]
      have hocc : t ∈ b.occupied ↔ ∃ r, t ∈ b.by_role.get r := by
        rw [h3.2, ByRole.mem_union6]
      rw [hocc]
      constructor
      · rintro ⟨hne, r, hr⟩
        exact ⟨r, (Board.discard_roleGet b sq r t).mpr ⟨hne, hr⟩⟩
      · rintro ⟨r, hr⟩
        rw [Board.discard_roleGet] at hr
        exact ⟨hr.1, r, hr.2⟩

/-! ## `find`, `piece_at` and `remove_piece_at` -/

theorem ByRole.find_some {α : Type} {t : ByRole α} {p : α → Bool} {r : Role}
    (h : t.find p = some r) : p (t.get r) = true := by
  unfold ByRole.find at h
  repeat' split at h
  all_goals try (injection h with h)
  all_goals try subst h
  all_goals simp_all [ByRole.get]

theorem ByRole.find_none {α : Type} {t : ByRole α} {p : α → Bool}
    (h : t.find p = none) : ∀ r : Role, p (t.get r) = false := by
  intro r
  unfold ByRole.find at h
  repeat' split at h
  any_goals exact Option.noConfusion h
  cases r <;> simp_all [ByRole.get]

theorem Board.piece_at_some_mem {b : Board} {sq : Square} {p : Piece}
    (h : b.piece_at sq = some p) : sq ∈ b.occupied ∧ sq ∈ b.by_role.get p.role := by
  unfold Board.piece_at Board.role_at at h
  by_cases hocc : sq ∈ b.occupied
  · rw [if_neg (not_not_intro hocc)] at h
    obtain ⟨r, hr, hpr⟩ := Option.map_eq_some'.mp h
    refine ⟨hocc, ?_⟩
    have := ByRole.find_some hr
    rw [decide_eq_true_eq] at this
    have hrole : p.role = r := by rw [← hpr]
    rw [hrole]
    exact this
  · rw [if_pos hocc] at h
    simp at h

theorem Board.piece_at_mem_color {b : Board} {sq : Square} {p : Piece} (hb : b.Valid)
    (h : b.piece_at sq = some p) : sq ∈ b.by_color.get p.color := by
  have hocc := (Board.piece_at_some_mem h).1
  have hcol : p.color = Color.from_white (decide (sq ∈ b.by_color.white)) := by
    unfold Board.piece_at at h
    obtain ⟨r, -, hpr⟩ := Option.map_eq_some'.mp h
    rw [← hpr]
  by_cases hw : sq ∈ b.by_color.white
  · rw [hcol]
    simp [hw, Color.from_white, ByColor.get_white_eq]
  · have hcol' : p.color = .black := by rw [hcol]; simp [hw, Color.from_white]
    rw [hcol', ByColor.get_black_eq]
    have := hb.2.2.1.1 ▸ hocc
    rcases Finset.mem_union.mp this with h' | h'
    · exact absurd h' hw
    · exact h'

theorem Board.piece_at_isSome {b : Board} (hb : b.Valid) {sq : Square}
    (h : sq ∈ b.occupied) : ∃ p, b.piece_at sq = some p := by
  unfold Board.piece_at Board.role_at
  rw [if_neg (not_not_intro h)]
  cases hf : b.by_role.find fun r => decide (sq ∈ r) with
  | none =>
    exfalso
    have hu : sq ∈ b.by_role.union6 := hb.2.2.1.2 ▸ h
    obtain ⟨r, hr⟩ := (ByRole.mem_union6 _ _).mp hu
    have := ByRole.find_none hf r
    rw [decide_eq_false_iff_not] at this
    exact this hr
  | some r => exact ⟨_, rfl⟩

theorem Board.remove_none {b : Board} {sq : Square} (h : b.piece_at sq = none) :
    b.remove_piece_at sq = (none, b) := by
  unfold Board.remove_piece_at
  rw [h]

theorem Board.remove_fst (b : Board) (sq : Square) :
    (b.remove_piece_at sq).1 = b.piece_at sq := by
  unfold Board.remove_piece_at
  cases h : b.piece_at sq <;> rfl

theorem Board.remove_some_roleGet {b : Board} {sq : Square} {p : Piece} (hb : b.Valid)
    (hp : b.piece_at sq = some p) (r : Role) (t : Square) :
    t ∈ (b.remove_piece_at sq).2.by_role.get r ↔ (t ≠ sq ∧ t ∈ b.by_role.get r) := by
  have hrole := (Board.piece_at_some_mem hp).2
  unfold Board.remove_piece_at
  rw [hp]
  show t ∈ (b.by_role.update p.role fun s => s.toggle sq).get r ↔ _
  rw [ByRole.get_update]
  by_cases hr : r = p.role
  · rw [if_pos hr, Bitboard.toggle_eq_erase (by rw [hr]; exact hrole)]
    exact Finset.mem_erase
  · rw [if_neg hr]
    constructor
    · intro hmem
      refine ⟨?_, hmem⟩
      rintro rfl
      exact inter_empty_not_mem (hb.1 r p.role hr) hmem hrole
    · exact And.right

theorem Board.remove_some_colorGet {b : Board} {sq : Square} {p : Piece} (hb : b.Valid)
    (hp : b.piece_at sq = some p) (c : Color) (t : Square) :
    t ∈ (b.remove_piece_at sq).2.by_color.get c ↔ (t ≠ sq ∧ t ∈ b.by_color.get c) := by
  have hcol := Board.piece_at_mem_color hb hp
  unfold Board.remove_piece_at
  rw [hp]
  show t ∈ (b.by_color.update p.color fun s => s.toggle sq).get c ↔ _
  rw [ByColor.get_update_eq]
  by_cases hc : c = p.color
  · rw [if_pos hc, Bitboard.toggle_eq_erase (by rw [hc]; exact hcol)]
    exact Finset.mem_erase
  · rw [if_neg hc]
    constructor
    · intro hmem
      refine ⟨?_, hmem⟩
      rintro rfl
      cases c with
      | black =>
        have h2 := hb.2.1
        have hpc : p.color = .white := by cases hcc : p.color <;> simp_all
        rw [hpc, ByColor.get_white_eq] at hcol
        rw [ByColor.get_black_eq] at hmem
        exact inter_empty_not_mem h2 hcol hmem
      | white =>
        have h2 := hb.2.1
        have hpc : p.color = .black := by cases hcc : p.color <;> simp_all
        rw [hpc, ByColor.get_black_eq] at hcol
        rw [ByColor.get_white_eq] at hmem
        exact inter_empty_not_mem h2 hmem hcol
    · exact And.right

theorem Board.remove_some_occupied {b : Board} {sq : Square} {p : Piece}
    (hp : b.piece_at sq = some p) (t : Square) :
    t ∈ (b.remove_piece_at sq).2.occupied ↔ (t ≠ sq ∧ t ∈ b.occupied) := by
  have hocc := (Board.piece_at_some_mem hp).1
  unfold Board.remove_piece_at
  rw [hp]
  show t ∈ b.occupied.toggle sq ↔ _
  rw [Bitboard.toggle_eq_erase hocc]
  exact Finset.mem_erase

theorem Board.remove_valid (b : Board) (sq : Square) (hb : b.Valid) :
    (b.remove_piece_at sq).2.Valid := by
  cases hp : b.piece_at sq with
  | none => rw [Board.remove_none hp]; exact hb
  | some p =>
    obtain ⟨h1, h2, h3, -⟩ := hb
    have hb : b.Valid := ⟨h1, h2, h3, (Board.valid_of h1 h2 h3).2.2.2⟩
    apply Board.valid_of
    · intro r r' hne
      apply Finset.eq_empty_iff_forall_not_mem.mpr
      intro t ht
      rw [Finset.mem_inter, Board.remove_some_roleGet hb hp, Board.remove_some_roleGet hb hp]
        at ht
      exact inter_empty_not_mem (h1 r r' hne) ht.1.2 ht.2.2
    · apply Finset.eq_empty_iff_forall_not_mem.mpr
      intro t ht
      rw [Finset.mem_inter, ← ByColor.get_white_eq, ← ByColor.get_black_eq,
        Board.remove_some_colorGet hb hp, Board.remove_some_colorGet hb hp] at ht
      exact inter_empty_not_mem h2 (by rw [ByColor.get_white_eq] at ht; exact ht.1.2)
        (by rw [ByColor.get_black_eq] at ht; exact ht.2.2)
    · constructor
      · apply Finset.ext
        intro t
        rw [Board.remove_some_occupied hp, Finset.mem_union, ← ByColor.get_white_eq,
          ← ByColor.get_black_eq, Board.remove_some_colorGet hb hp,
          Board.remove_some_colorGet hb hp]
        have hocc : t ∈ b.occupied ↔ t ∈ b.by_color.get .white ∨ t ∈ b.by_color.get .black := by
          rw [ByColor.get_white_eq, ByColor.get_black_eq, h3.1, Finset.mem_union]
        rw [hocc]
        tauto
      · apply Finset.ext
        intro t
        rw [Board.remove_some_occupied hp, ByRole.mem_union6]
        have hocc : t ∈ b.occupied ↔ ∃ r, t ∈ b.by_role.get r := by
          rw [h3.2, ByRole.mem_union6]
        rw [hocc]
        constructor
        · rintro ⟨hne, r, hr⟩
          exact ⟨r, (Board.remove_some_roleGet hb hp r t).mpr ⟨hne, hr⟩⟩
        · rintro ⟨r, hr⟩
          rw [Board.remove_some_roleGet hb hp] at hr
          exact ⟨hr.1, r, hr.2⟩

/-! ## Transforms -/

theorem Board.transform_roleGet (b : Board) (f : Bitboard → Bitboard) (r : Role) :
    (b.transform f).by_role.get r = f (b.by_role.get r) := by
  show (ByRole.map f b.by_role).get r = _
  exact ByRole.get_map f b.by_role r

theorem Board.transform_colorGet (b : Board) (f : Bitboard → Bitboard) (c : Color) :
    (b.transform f).by_color.get c = f (b.by_color.get c) := by
  show (ByColor.map f b.by_color).get c = _
  exact ByColor.get_map_eq f b.by_color c

theorem Board.transform_image_valid {g : Square → Square} (hg : Function.Injective g)
    (b : Board) (hb : b.Valid) : (b.transform fun s => s.image g).Valid := by
  obtain ⟨h1, h2, h3, -⟩ := hb
  apply Board.valid_of
  · intro r r' hne
    rw [Board.transform_roleGet, Board.transform_roleGet, ← Finset.image_inter _ _ hg,
      h1 r r' hne, Finset.image_empty]
  · show Finset.image g b.by_color.white ∩ Finset.image g b.by_color.black = ∅
    rw [← Finset.image_inter _ _ hg, h2, Finset.image_empty]
  · constructor
    · rfl
    · show Finset.image g b.by_color.white ∪ Finset.image g b.by_color.black
        = ByRole.union6 (ByRole.map (fun s => s.image g) b.by_role)
      have hu6 : ByRole.union6 (ByRole.map (fun s => s.image g) b.by_role)
          = b.by_role.union6.image g := by
        simp [ByRole.union6, ByRole.map, Finset.image_union]
      rw [hu6, ← h3.2, h3.1, Finset.image_union]

theorem Board.transform_transform (b : Board) (g h : Square → Square) :
    ((b.transform fun s => s.image g).transform fun s => s.image h)
      = b.transform fun s => s.image (h ∘ g) := by
  unfold Board.transform
  simp [ByRole.map, ByColor.map, Finset.image_image]

theorem Board.transform_image_id (b : Board) {k : Square → Square} (hk : ∀ x, k x = x)
    (h3 : b.occupied = b.by_color.white ∪ b.by_color.black) :
    (b.transform fun s => s.image k) = b := by
  have hkid : k = id := funext hk
  subst hkid
  cases b with
  | mk br bc occ =>
    unfold Board.transform
    simp only [Finset.image_id]
    simp only [ByRole.map, ByColor.map] at *
    simp_all

/-! ## Validity of each named transform -/

theorem flipVerticalSq_injective : Function.Injective flipVerticalSq := by
  intro a b h
  have hv : fileOf a + 8 * (7 - rankOf a) = fileOf b + 8 * (7 - rankOf b) :=
    congrArg Fin.val h
  have ha := a.isLt
  have hb := b.isLt
  unfold fileOf rankOf at hv
  exact Fin.ext (by omega)

theorem flipHorizontalSq_injective : Function.Injective flipHorizontalSq := by
  intro a b h
  have hv : (7 - fileOf a) + 8 * rankOf a = (7 - fileOf b) + 8 * rankOf b :=
    congrArg Fin.val h
  have ha := a.isLt
  have hb := b.isLt
  unfold fileOf rankOf at hv
  exact Fin.ext (by omega)

theorem flipDiagonalSq_injective : Function.Injective flipDiagonalSq := by
  intro a b h
  have hv : rankOf a + 8 * fileOf a = rankOf b + 8 * fileOf b :=
    congrArg Fin.val h
  have ha := a.isLt
  have hb := b.isLt
  unfold fileOf rankOf at hv
  exact Fin.ext (by omega)

theorem flipAntiDiagonalSq_injective : Function.Injective flipAntiDiagonalSq := by
  intro a b h
  have hv : (7 - rankOf a) + 8 * (7 - fileOf a) = (7 - rankOf b) + 8 * (7 - fileOf b) :=
    congrArg Fin.val h
  have ha := a.isLt
  have hb := b.isLt
  unfold fileOf rankOf at hv
  exact Fin.ext (by omega)

theorem rotate90Sq_injective : Function.Injective rotate90Sq :=
  fun _ _ h => flipDiagonalSq_injective (flipVerticalSq_injective h)

theorem rotate180Sq_injective : Function.Injective rotate180Sq :=
  fun _ _ h => flipVerticalSq_injective (flipHorizontalSq_injective h)

theorem rotate270Sq_injective : Function.Injective rotate270Sq :=
  fun _ _ h => flipVerticalSq_injective (flipDiagonalSq_injective h)

theorem Board.flip_vertical_valid (b : Board) (hb : b.Valid) : b.flip_vertical.Valid :=
  Board.transform_image_valid flipVerticalSq_injective b hb

theorem Board.flip_horizontal_valid (b : Board) (hb : b.Valid) : b.flip_horizontal.Valid :=
  Board.transform_image_valid flipHorizontalSq_injective b hb

theorem Board.flip_diagonal_valid (b : Board) (hb : b.Valid) : b.flip_diagonal.Valid :=
  Board.transform_image_valid flipDiagonalSq_injective b hb

theorem Board.flip_anti_diagonal_valid (b : Board) (hb : b.Valid) :
    b.flip_anti_diagonal.Valid :=
  Board.transform_image_valid flipAntiDiagonalSq_injective b hb

theorem Board.rotate_90_valid (b : Board) (hb : b.Valid) : b.rotate_90.Valid :=
  Board.transform_image_valid rotate90Sq_injective b hb

theorem Board.rotate_180_valid (b : Board) (hb : b.Valid) : b.rotate_180.Valid :=
  Board.transform_image_valid rotate180Sq_injective b hb

theorem Board.rotate_270_valid (b : Board) (hb : b.Valid) : b.rotate_270.Valid :=
  Board.transform_image_valid rotate270Sq_injective b hb

theorem Board.extend_valid (b : Board) (xs : List (Square × Piece)) (hb : b.Valid) :
    (b.extend xs).Valid := by
  induction xs generalizing b with
  | nil => exact hb
  | cons x xs ih => exact ih _ (Board.set_valid b x.1 x.2 hb)

/-- One public mutating operation of the Board interface. -/
inductive Op
  | setP (sq : Square) (p : Piece)
  | removeP (sq : Square)
  | discardP (sq : Square)
  | flipV | flipH | flipD | flipA
  | rot90 | rot180 | rot270
  | bulk (xs : List (Square × Piece))

/-- The effect of one public mutating operation. -/
def Op.apply (op : Op) (b : Board) : Board :=
  match op with
  | .setP sq p => b.set_piece_at sq p
  | .removeP sq => (b.remove_piece_at sq).2
  | .discardP sq => b.discard_piece_at sq
  | .flipV => b.flip_vertical
  | .flipH => b.flip_horizontal
  | .flipD => b.flip_diagonal
  | .flipA => b.flip_anti_diagonal
  | .rot90 => b.rotate_90
  | .rot180 => b.rotate_180
  | .rot270 => b.rotate_270
  | .bulk xs => b.extend xs

/-- C1: every public mutating operation (set_piece_at, remove_piece_at,
discard_piece_at, the seven transforms, and bulk extend) preserves I1–I4, and
hence any sequence of such calls starting from a valid Board yields a valid
Board. -/
theorem invariants_preserved :
    (∀ (op : Op) (b : Board), b.Valid → (op.apply b).Valid) ∧
    (∀ (ops : List Op) (b : Board), b.Valid →
      (ops.foldl (fun bd op => op.apply bd) b).Valid) := by
  have hop : ∀ (op : Op) (b : Board), b.Valid → (op.apply b).Valid := by
    intro op b hb
    cases op with
    | setP sq p => exact Board.set_valid b sq p hb
    | removeP sq => exact Board.remove_valid b sq hb
    | discardP sq => exact Board.discard_valid b sq hb
    | flipV => exact Board.flip_vertical_valid b hb
    | flipH => exact Board.flip_horizontal_valid b hb
    | flipD => exact Board.flip_diagonal_valid b hb
    | flipA => exact Board.flip_anti_diagonal_valid b hb
    | rot90 => exact Board.rotate_90_valid b hb
    | rot180 => exact Board.rotate_180_valid b hb
    | rot270 => exact Board.rotate_270_valid b hb
    | bulk xs => exact Board.extend_valid b xs hb
  refine ⟨hop, ?_⟩
  intro ops
  induction ops with
  | nil => exact fun b hb => hb
  | cons op ops ih => exact fun b hb => ih _ (hop op b hb)

/-- Witness for C1: the empty board is valid, and stays valid after a sample
sequence of mutating calls. -/
theorem invariants_preserved_witness :
    Board.empty.Valid ∧
      ([Op.setP (28 : Fin 64) ⟨.white, .queen⟩, Op.flipV,
          Op.removeP (28 : Fin 64)].foldl (fun bd op => op.apply bd) Board.empty).Valid :=
  ⟨by decide, invariants_preserved.2 _ _ (by decide)⟩

/-! ## Square-map identities -/

theorem flipVerticalSq_involutive (x : Square) : flipVerticalSq (flipVerticalSq x) = x := by
  have hx := x.isLt
  apply Fin.ext
  simp only [flipVerticalSq, fileOf, rankOf]
  omega

theorem flipHorizontalSq_involutive (x : Square) :
    flipHorizontalSq (flipHorizontalSq x) = x := by
  have hx := x.isLt
  apply Fin.ext
  simp only [flipHorizontalSq, fileOf, rankOf]
  omega

theorem flipVH_eq_rotate180 (x : Square) :
    flipVerticalSq (flipHorizontalSq x) = rotate180Sq x := by
  have hx := x.isLt
  apply Fin.ext
  simp only [rotate180Sq, flipVerticalSq, flipHorizontalSq, fileOf, rankOf]
  omega

theorem rotate90Sq_val (x : Square) :
    (rotate90Sq x : Nat) = (x : Nat) / 8 + 8 * (7 - (x : Nat) % 8) := by
  have hx := x.isLt
  simp only [rotate90Sq, flipVerticalSq, flipDiagonalSq, fileOf, rankOf]
  omega

theorem rotate180Sq_val (x : Square) :
    (rotate180Sq x : Nat) = (7 - (x : Nat) % 8) + 8 * (7 - (x : Nat) / 8) := by
  have hx := x.isLt
  simp only [rotate180Sq, flipVerticalSq, flipHorizontalSq, fileOf, rankOf]
  omega

theorem rotate90Sq_twice (x : Square) : rotate90Sq (rotate90Sq x) = rotate180Sq x := by
  have hx := x.isLt
  have h9 := rotate90Sq_val (rotate90Sq x)
  rw [rotate90Sq_val x] at h9
  apply Fin.ext
  rw [h9, rotate180Sq_val]
  omega

theorem rotate180Sq_involutive (x : Square) : rotate180Sq (rotate180Sq x) = x := by
  have hx := x.isLt
  apply Fin.ext
  simp only [rotate180Sq, flipVerticalSq, flipHorizontalSq, fileOf, rankOf]
  omega

theorem rotate90Sq_pow4 (x : Square) :
    rotate90Sq (rotate90Sq (rotate90Sq (rotate90Sq x))) = x := by
  rw [rotate90Sq_twice x, rotate90Sq_twice (rotate180Sq x)]
  exact rotate180Sq_involutive x

/-- C7: flip_vertical and flip_horizontal are involutions on valid Boards,
rotate_90 applied four times is the identity, and rotate_180 equals
flip_vertical composed with flip_horizontal in either order.  (All reachable
Boards are valid, since every public operation preserves I1–I4.) -/
theorem transform_involutions (b : Board) (hb : b.Valid) :
    b.flip_vertical.flip_vertical = b ∧
    b.flip_horizontal.flip_horizontal = b ∧
    b.rotate_90.rotate_90.rotate_90.rotate_90 = b ∧
    b.flip_vertical.flip_horizontal = b.rotate_180 ∧
    b.flip_horizontal.flip_vertical = b.rotate_180 := by
  have h3 := hb.2.2.1.1
  refine ⟨?_, ?_, ?_, ?_, ?_⟩
  · show ((b.transform fun s => s.image flipVerticalSq).transform
        fun s => s.image flipVerticalSq) = b
    rw [Board.transform_transform]
    exact Board.transform_image_id b (fun x => flipVerticalSq_involutive x) h3
  · show ((b.transform fun s => s.image flipHorizontalSq).transform
        fun s => s.image flipHorizontalSq) = b
    rw [Board.transform_transform]
    exact Board.transform_image_id b (fun x => flipHorizontalSq_involutive x) h3
  · show ((((b.transform fun s => s.image rotate90Sq).transform
        fun s => s.image rotate90Sq).transform
        fun s => s.image rotate90Sq).transform
        fun s => s.image rotate90Sq) = b
    rw [Board.transform_transform, Board.transform_transform, Board.transform_transform]
    exact Board.transform_image_id b (fun x => rotate90Sq_pow4 x) h3
  · show ((b.transform fun s => s.image flipVerticalSq).transform
        fun s => s.image flipHorizontalSq) = b.transform fun s => s.image rotate180Sq
    rw [Board.transform_transform]
    rfl
  · show ((b.transform fun s => s.image flipHorizontalSq).transform
        fun s => s.image flipVerticalSq) = b.transform fun s => s.image rotate180Sq
    rw [Board.transform_transform]
    have hc : (flipVerticalSq ∘ flipHorizontalSq) = rotate180Sq :=
      funext fun x => flipVH_eq_rotate180 x
    simp only [hc]

/-- Witness for C7: the involution laws instantiated at a concrete valid
board with one white queen. -/
theorem transform_involutions_witness :
    (Board.empty.set_piece_at (28 : Fin 64) ⟨.white, .queen⟩).Valid ∧
      (Board.empty.set_piece_at (28 : Fin 64)
          ⟨.white, .queen⟩).flip_vertical.flip_vertical
        = Board.empty.set_piece_at (28 : Fin 64) ⟨.white, .queen⟩ :=
  ⟨by decide, (transform_involutions _ (by decide)).1⟩

/-! ## C3, C4, C6, C9 -/

theorem ByRole.find_unique {α : Type} (t : ByRole α) (p : α → Bool) (r0 : Role)
    (h : ∀ r, (p (t.get r) = true) ↔ r = r0) : t.find p = some r0 := by
  have hp := h .pawn
  have hn := h .knight
  have hbi := h .bishop
  have hr := h .rook
  have hq := h .queen
  have hk := h .king
  simp only [ByRole.get] at hp hn hbi hr hq hk
  unfold ByRole.find
  cases r0 <;> simp_all

/-- The attack-aggregation formula exactly as the spec words it: the union of
the five per-piece-type terms, then intersected with the attacker's pieces;
the pawn term computes pawn attacks from the opposing color's perspective. -/
def attacksToFormula (b : Board) (sq : Square) (attacker : Color) (occ : Bitboard) :
    Bitboard :=
  ((attacks.rook_attacks sq occ ∩ b.rooks_and_queens) ∪
   (attacks.bishop_attacks sq occ ∩ b.bishops_and_queens) ∪
   (attacks.knight_attacks sq ∩ b.by_role.knight) ∪
   (attacks.king_attacks sq ∩ b.by_role.king) ∪
   (attacks.pawn_attacks (Color.other attacker) sq ∩ b.by_role.pawn)) ∩
    b.color_bb attacker

/-- C3: for every Board, square, attacker color and occupancy set (which may
differ from the Board's own), `attacks_to` equals the spec's aggregation
formula, with the pawn term taken from the opposite color's perspective. -/
theorem attacks_to_formula_eq (b : Board) (sq : Square) (attacker : Color)
    (occ : Bitboard) : b.attacks_to sq attacker occ = attacksToFormula b sq attacker occ := by
  unfold Board.attacks_to attacksToFormula
  exact Finset.inter_comm _ _

/-- C4: placing piece p at square s and immediately querying s returns p, for
every Board, square and piece. -/
theorem set_then_piece_at (b : Board) (sq : Square) (p : Piece) :
    (b.set_piece_at sq p).piece_at sq = some p := by
  obtain ⟨pc, pr⟩ := p
  have hocc : sq ∈ (b.set_piece_at sq ⟨pc, pr⟩).occupied :=
    (Board.mem_set_occupied b sq ⟨pc, pr⟩ sq).mpr (Or.inl rfl)
  have hrole : ∀ r : Role, (sq ∈ (b.set_piece_at sq ⟨pc, pr⟩).by_role.get r) ↔ r = pr := by
    intro r
    rw [Board.set_roleGet]
    simp
  have hwhite : (sq ∈ (b.set_piece_at sq ⟨pc, pr⟩).by_color.white) ↔ pc = .white := by
    rw [← ByColor.get_white_eq, Board.set_colorGet]
    simp [eq_comm]
  unfold Board.piece_at Board.role_at
  rw [if_neg (not_not_intro hocc)]
  have hfind : ((b.set_piece_at sq ⟨pc, pr⟩).by_role.find fun r => decide (sq ∈ r))
      = some pr := by
    apply ByRole.find_unique
    intro r
    rw [decide_eq_true_eq]
    exact hrole r
  rw [hfind]
  show some _ = some _
  cases pc with
  | white =>
    have : decide (sq ∈ (b.set_piece_at sq ⟨.white, pr⟩).by_color.white) = true :=
      decide_eq_true (hwhite.mpr rfl)
    rw [this]
    rfl
  | black =>
    have : decide (sq ∈ (b.set_piece_at sq ⟨.black, pr⟩).by_color.white) = false :=
      decide_eq_false fun hmem => Color.noConfusion (hwhite.mp hmem)
    rw [this]
    rfl

set_option maxHeartbeats 2000000 in
/-- C6: under I1 the xor-implemented derived queries coincide with the set
unions the spec states. -/
theorem xor_queries_eq_union (b : Board) (h1 : b.inv1) :
    b.sliders = b.by_role.bishop ∪ b.by_role.rook ∪ b.by_role.queen ∧
    b.steppers = b.by_role.pawn ∪ b.by_role.knight ∪ b.by_role.king ∧
    b.rooks_and_queens = b.by_role.rook ∪ b.by_role.queen ∧
    b.bishops_and_queens = b.by_role.bishop ∪ b.by_role.queen := by
  have hd : ∀ r r' : Role, r ≠ r' →
      ∀ t : Square, t ∈ b.by_role.get r → t ∉ b.by_role.get r' :=
    fun r r' hne t ht => inter_empty_not_mem (h1 r r' hne) ht
  refine ⟨?_, ?_, ?_, ?_⟩
  · apply Finset.ext
    intro t
    have h1f := hd .bishop .rook (by decide) t
    have h2f := hd .rook .bishop (by decide) t
    have h3f := hd .bishop .queen (by decide) t
    have h4f := hd .queen .bishop (by decide) t
    have h5f := hd .rook .queen (by decide) t
    have h6f := hd .queen .rook (by decide) t
    simp only [ByRole.get] at h1f h2f h3f h4f h5f h6f
    simp only [Board.sliders, Bitboard.mem_bxor, Finset.mem_union]
    tauto
  · apply Finset.ext
    intro t
    have h1f := hd .pawn .knight (by decide) t
    have h2f := hd .knight .pawn (by decide) t
    have h3f := hd .pawn .king (by decide) t
    have h4f := hd .king .pawn (by decide) t
    have h5f := hd .knight .king (by decide) t
    have h6f := hd .king .knight (by decide) t
    simp only [ByRole.get] at h1f h2f h3f h4f h5f h6f
    simp only [Board.steppers, Bitboard.mem_bxor, Finset.mem_union]
    tauto
  · apply Finset.ext
    intro t
    have h1f := hd .rook .queen (by decide) t
    have h2f := hd .queen .rook (by decide) t
    simp only [ByRole.get] at h1f h2f
    simp only [Board.rooks_and_queens, Bitboard.mem_bxor, Finset.mem_union]
    tauto
  · apply Finset.ext
    intro t
    have h1f := hd .bishop .queen (by decide) t
    have h2f := hd .queen .bishop (by decide) t
    simp only [ByRole.get] at h1f h2f
    simp only [Board.bishops_and_queens, Bitboard.mem_bxor, Finset.mem_union]
    tauto

/-- Witness for C6: the starting-position relations hold for a small concrete
board satisfying I1. -/
theorem xor_queries_eq_union_witness :
    (Board.empty.set_piece_at (0 : Fin 64) ⟨.white, .rook⟩).inv1 ∧
      (Board.empty.set_piece_at (0 : Fin 64) ⟨.white, .rook⟩).rooks_and_queens
        = (Board.empty.set_piece_at (0 : Fin 64) ⟨.white, .rook⟩).by_role.rook ∪
          (Board.empty.set_piece_at (0 : Fin 64) ⟨.white, .rook⟩).by_role.queen :=
  ⟨by decide, (xor_queries_eq_union _ (by decide)).2.2.1⟩

/-- C9: `king_of` returns a square exactly when it is the single element of
king-set ∩ color-set, and returns absence whenever that intersection does not
have exactly one element. -/
theorem king_of_single (b : Board) (c : Color) :
    (∀ s : Square, b.king_of c = some s ↔ b.by_role.king ∩ b.color_bb c = {s}) ∧
    (b.king_of c = none ↔ (b.by_role.king ∩ b.color_bb c).card ≠ 1) := by
  unfold Board.king_of Bitboard.single_square
  constructor
  · intro s
    by_cases h : (b.by_role.king ∩ b.color_bb c).card = 1
    · rw [dif_pos h]
      obtain ⟨a, ha⟩ := Finset.card_eq_one.mp h
      have hall : ∀ x ∈ b.by_role.king ∩ b.color_bb c, x = a := by
        intro x hx
        rw [ha] at hx
        exact Finset.mem_singleton.mp hx
      have hm : (b.by_role.king ∩ b.color_bb c).min'
          (Finset.card_pos.mp (h ▸ Nat.one_pos)) = a :=
        hall _ (Finset.min'_mem _ _)
      rw [hm]
      constructor
      · intro hs
        rw [Option.some_inj] at hs
        rw [ha, hs]
      · intro hs
        have has : a = s := Finset.singleton_injective (ha.symm.trans hs)
        exact congrArg some has
    · rw [dif_neg h]
      constructor
      · intro hs
        exact Option.noConfusion hs
      · intro hs
        exact absurd (hs ▸ Finset.card_singleton s) h
  · by_cases h : (b.by_role.king ∩ b.color_bb c).card = 1
    · rw [dif_pos h]
      constructor
      · intro hs
        exact Option.noConfusion hs
      · intro hs
        exact absurd h hs
    · rw [dif_neg h]
      exact ⟨fun _ => h, fun _ => rfl⟩

/-! ## C5 and C10 -/

/-- C5: removal returns the previous occupant and empties the square; a second
removal returns absence and leaves the board unchanged; concretely, placing a
white queen on e4 (square 28) in the empty board and removing it returns the
queen and restores `empty`. -/
theorem remove_piece_at_spec (b : Board) (hb : b.Valid) (sq : Square) :
    (b.remove_piece_at sq).1 = b.piece_at sq ∧
    (b.remove_piece_at sq).2.piece_at sq = none ∧
    (b.remove_piece_at sq).2.remove_piece_at sq = (none, (b.remove_piece_at sq).2) ∧
    (Board.empty.set_piece_at (28 : Fin 64) ⟨.white, .queen⟩).remove_piece_at (28 : Fin 64)
      = (some ⟨.white, .queen⟩, Board.empty) := by
  have hempty : (b.remove_piece_at sq).2.piece_at sq = none := by
    cases hp : b.piece_at sq with
    | none => rw [Board.remove_none hp]; exact hp
    | some q =>
      have hout : sq ∉ (b.remove_piece_at sq).2.occupied := by
        rw [Board.remove_some_occupied hp]
        simp
      unfold Board.piece_at Board.role_at
      rw [if_pos hout]
      rfl
  exact ⟨Board.remove_fst b sq, hempty, Board.remove_none hempty, by decide⟩

/-- Witness for C5: instantiated at the empty board and square a1. -/
theorem remove_piece_at_spec_witness :
    Board.empty.Valid ∧
      (Board.empty.remove_piece_at (0 : Fin 64)).1 = Board.empty.piece_at (0 : Fin 64) :=
  ⟨by decide, (remove_piece_at_spec Board.empty (by decide) (0 : Fin 64)).1⟩

theorem Board.piece_at_congr (b1 b2 : Board) (t : Square)
    (hocc : t ∈ b1.occupied ↔ t ∈ b2.occupied)
    (hrole : ∀ r : Role, t ∈ b1.by_role.get r ↔ t ∈ b2.by_role.get r)
    (hwhite : t ∈ b1.by_color.white ↔ t ∈ b2.by_color.white) :
    b1.piece_at t = b2.piece_at t := by
  have hp := hrole .pawn
  have hn := hrole .knight
  have hbi := hrole .bishop
  have hr := hrole .rook
  have hq := hrole .queen
  have hk := hrole .king
  simp only [ByRole.get] at hp hn hbi hr hq hk
  unfold Board.piece_at Board.role_at ByRole.find
  simp only [hocc, hwhite, hp, hn, hbi, hr, hq, hk]

/-- C10: each of remove/discard/set at square sq leaves `piece_at` unchanged
at every other square t. -/
theorem mutation_frame (b : Board) (hb : b.Valid) (sq t : Square) (hne : t ≠ sq)
    (p : Piece) :
    (b.remove_piece_at sq).2.piece_at t = b.piece_at t ∧
    (b.discard_piece_at sq).piece_at t = b.piece_at t ∧
    (b.set_piece_at sq p).piece_at t = b.piece_at t := by
  refine ⟨?_, ?_, ?_⟩
  · cases hp : b.piece_at sq with
    | none => rw [Board.remove_none hp]
    | some q =>
      apply Board.piece_at_congr
      · rw [Board.remove_some_occupied hp]
        simp [hne]
      · intro r
        rw [Board.remove_some_roleGet ⟨hb.1, hb.2.1, hb.2.2.1, hb.2.2.2⟩ hp]
        simp [hne]
      · exact (by
          rw [Board.remove_some_colorGet ⟨hb.1, hb.2.1, hb.2.2.1, hb.2.2.2⟩ hp]
          simp [hne] :
          t ∈ (b.remove_piece_at sq).2.by_color.get .white ↔ t ∈ b.by_color.get .white)
  · apply Board.piece_at_congr
    · rw [Board.mem_discard_occupied]
      simp [hne]
    · intro r
      rw [Board.discard_roleGet]
      simp [hne]
    · exact (by
        rw [Board.discard_colorGet]
        simp [hne] :
        t ∈ (b.discard_piece_at sq).by_color.get .white ↔ t ∈ b.by_color.get .white)
  · apply Board.piece_at_congr
    · rw [Board.mem_set_occupied]
      simp [hne]
    · intro r
      rw [Board.set_roleGet]
      simp [hne]
    · exact (by
        rw [Board.set_colorGet]
        simp [hne] :
        t ∈ (b.set_piece_at sq p).by_color.get .white ↔ t ∈ b.by_color.get .white)

/-- Witness for C10: removing from a1 does not disturb the queen on e4. -/
theorem mutation_frame_witness :
    (Board.empty.set_piece_at (28 : Fin 64) ⟨.white, .queen⟩).Valid ∧
      ((Board.empty.set_piece_at (28 : Fin 64) ⟨.white, .queen⟩).remove_piece_at
          (0 : Fin 64)).2.piece_at (28 : Fin 64)
        = (Board.empty.set_piece_at (28 : Fin 64) ⟨.white, .queen⟩).piece_at (28 : Fin 64) :=
  ⟨by decide,
    (mutation_frame _ (by decide) (0 : Fin 64) (28 : Fin 64) (by decide)
      ⟨.white, .queen⟩).1⟩

/-! ## C2: from_bitboards -/

/-- Pairwise disjointness of the six role slots. -/
def ByRole.pairwiseDisjoint6 (t : ByRole Bitboard) : Prop :=
  ∀ r r' : Role, r ≠ r' → t.get r ∩ t.get r' = ∅

instance (t : ByRole Bitboard) : Decidable t.pairwiseDisjoint6 := by
  unfold ByRole.pairwiseDisjoint6; infer_instance

/-- The accumulation loop of `from_bitboards` on the six role sets, in
closed form: the sequential disjointness checks as one conjunction. -/
theorem Board.accRoles6 (br : ByRole Bitboard) :
    Board.accRoles [br.pawn, br.knight, br.bishop, br.rook, br.queen, br.king] ∅
      = if br.pawn ∩ br.knight = ∅ ∧ (br.pawn ∪ br.knight) ∩ br.bishop = ∅ ∧
           (br.pawn ∪ br.knight ∪ br.bishop) ∩ br.rook = ∅ ∧
           (br.pawn ∪ br.knight ∪ br.bishop ∪ br.rook) ∩ br.queen = ∅ ∧
           (br.pawn ∪ br.knight ∪ br.bishop ∪ br.rook ∪ br.queen) ∩ br.king = ∅
        then some br.union6 else none := by
  by_cases c1 : br.pawn ∩ br.knight = ∅ <;>
    by_cases c2 : (br.pawn ∪ br.knight) ∩ br.bishop = ∅ <;>
    by_cases c3 : (br.pawn ∪ br.knight ∪ br.bishop) ∩ br.rook = ∅ <;>
    by_cases c4 : (br.pawn ∪ br.knight ∪ br.bishop ∪ br.rook) ∩ br.queen = ∅ <;>
    by_cases c5 : (br.pawn ∪ br.knight ∪ br.bishop ∪ br.rook ∪ br.queen) ∩ br.king = ∅ <;>
    simp only [Board.accRoles, Finset.empty_inter, Finset.empty_union, eq_self_iff_true,
      if_true, c1, c2, c3, c4, c5, and_true, true_and, and_false, false_and, if_false,
      ByRole.union6]

theorem union_inter_empty_left {s t u : Bitboard} (h : (s ∪ t) ∩ u = ∅) : s ∩ u = ∅ := by
  apply Finset.eq_empty_iff_forall_not_mem.mpr
  intro a ha
  rw [Finset.mem_inter] at ha
  exact inter_empty_not_mem h (Finset.mem_union_left _ ha.1) ha.2

theorem union_inter_empty_right {s t u : Bitboard} (h : (s ∪ t) ∩ u = ∅) : t ∩ u = ∅ := by
  apply Finset.eq_empty_iff_forall_not_mem.mpr
  intro a ha
  rw [Finset.mem_inter] at ha
  exact inter_empty_not_mem h (Finset.mem_union_right _ ha.1) ha.2

theorem union_inter_empty {s t u : Bitboard} (h1 : s ∩ u = ∅) (h2 : t ∩ u = ∅) :
    (s ∪ t) ∩ u = ∅ := by
  rw [Finset.union_inter_distrib_right, h1, h2, Finset.union_empty]

/-- The sequential disjointness checks of the loop are equivalent to pairwise
disjointness of the six role sets. -/
theorem seq_checks_iff_pairwise (br : ByRole Bitboard) :
    (br.pawn ∩ br.knight = ∅ ∧ (br.pawn ∪ br.knight) ∩ br.bishop = ∅ ∧
      (br.pawn ∪ br.knight ∪ br.bishop) ∩ br.rook = ∅ ∧
      (br.pawn ∪ br.knight ∪ br.bishop ∪ br.rook) ∩ br.queen = ∅ ∧
      (br.pawn ∪ br.knight ∪ br.bishop ∪ br.rook ∪ br.queen) ∩ br.king = ∅)
      ↔ br.pairwiseDisjoint6 := by
  constructor
  · rintro ⟨c1, c2, c3, c4, c5⟩ r r' hne
    have pn := c1
    have pb := union_inter_empty_left c2
    have nb := union_inter_empty_right c2
    have pr := union_inter_empty_left (union_inter_empty_left c3)
    have nr := union_inter_empty_right (union_inter_empty_left c3)
    have br_ := union_inter_empty_right c3
    have pq := union_inter_empty_left (union_inter_empty_left (union_inter_empty_left c4))
    have nq := union_inter_empty_right (union_inter_empty_left (union_inter_empty_left c4))
    have bq := union_inter_empty_right (union_inter_empty_left c4)
    have rq := union_inter_empty_right c4
    have pk := union_inter_empty_left
      (union_inter_empty_left (union_inter_empty_left (union_inter_empty_left c5)))
    have nk := union_inter_empty_right
      (union_inter_empty_left (union_inter_empty_left (union_inter_empty_left c5)))
    have bk := union_inter_empty_right (union_inter_empty_left (union_inter_empty_left c5))
    have rk := union_inter_empty_right (union_inter_empty_left c5)
    have qk := union_inter_empty_right c5
    cases r <;> cases r' <;> simp only [ByRole.get] <;>
      first
        | exact absurd rfl hne
        | assumption
        | (rw [Finset.inter_comm]; assumption)
  · intro h
    refine ⟨h .pawn .knight (by decide), ?_, ?_, ?_, ?_⟩
    · exact union_inter_empty (h .pawn .bishop (by decide)) (h .knight .bishop (by decide))
    · exact union_inter_empty
        (union_inter_empty (h .pawn .rook (by decide)) (h .knight .rook (by decide)))
        (h .bishop .rook (by decide))
    · exact union_inter_empty
        (union_inter_empty
          (union_inter_empty (h .pawn .queen (by decide)) (h .knight .queen (by decide)))
          (h .bishop .queen (by decide)))
        (h .rook .queen (by decide))
    · exact union_inter_empty
        (union_inter_empty
          (union_inter_empty
            (union_inter_empty (h .pawn .king (by decide)) (h .knight .king (by decide)))
            (h .bishop .king (by decide)))
          (h .rook .king (by decide)))
        (h .queen .king (by decide))

/-- `from_bitboards` in closed form: it succeeds exactly when the role sets
are pairwise disjoint, the color sets are disjoint, and the unions agree. -/
theorem Board.from_bitboards_eq (br : ByRole Bitboard) (bc : ByColor Bitboard) :
    Board.from_bitboards br bc
      = if br.pairwiseDisjoint6 ∧ bc.black ∩ bc.white = ∅ ∧
            br.union6 = bc.black ∪ bc.white
        then some { by_role := br, by_color := bc, occupied := br.union6 }
        else none := by
  unfold Board.from_bitboards
  rw [Board.accRoles6]
  by_cases hp : br.pairwiseDisjoint6
  · rw [if_pos ((seq_checks_iff_pairwise br).mpr hp)]
    show (if bc.black ∩ bc.white = ∅ then _ else none) = _
    by_cases h2 : bc.black ∩ bc.white = ∅
    · rw [if_pos h2]
      by_cases h3 : br.union6 = bc.black ∪ bc.white
      · rw [if_pos h3, if_pos ⟨hp, h2, h3⟩]
      · rw [if_neg h3, if_neg (by tauto)]
    · rw [if_neg h2, if_neg (by tauto)]
  · rw [if_neg (fun hcon => hp ((seq_checks_iff_pairwise br).mp hcon))]
    show none = _
    rw [if_neg (by tauto)]

/-- C2: `from_bitboards` aborts fatally (modelled as `none`) exactly when the
role-sets are not pairwise disjoint, the color-sets are not disjoint, or the
union of the role-sets differs from the union of the color-sets; on success
the `occupied` field is the union of the inputs.  Scenario C: two role-sets
sharing square a1 abort. -/
theorem from_bitboards_contract (br : ByRole Bitboard) (bc : ByColor Bitboard) :
    (Board.from_bitboards br bc = none ↔
      ¬ br.pairwiseDisjoint6 ∨ bc.black ∩ bc.white ≠ ∅ ∨
        br.union6 ≠ bc.black ∪ bc.white) ∧
    (∀ bd : Board, Board.from_bitboards br bc = some bd →
      bd.occupied = br.union6 ∧ bd.occupied = bc.black ∪ bc.white) ∧
    Board.from_bitboards ⟨{0}, {0}, ∅, ∅, ∅, ∅⟩ ⟨∅, {0}⟩ = none := by
  refine ⟨?_, ?_, by decide⟩
  · rw [Board.from_bitboards_eq]
    by_cases hc : br.pairwiseDisjoint6 ∧ bc.black ∩ bc.white = ∅ ∧
        br.union6 = bc.black ∪ bc.white
    · rw [if_pos hc]
      constructor
      · intro h
        exact Option.noConfusion h
      · intro h
        tauto
    · rw [if_neg hc]
      constructor
      · intro _
        tauto
      · intro _
        rfl
  · intro bd h
    rw [Board.from_bitboards_eq] at h
    by_cases hc : br.pairwiseDisjoint6 ∧ bc.black ∩ bc.white = ∅ ∧
        br.union6 = bc.black ∪ bc.white
    · rw [if_pos hc, Option.some_inj] at h
      rw [← h]
      exact ⟨rfl, hc.2.2⟩
    · rw [if_neg hc] at h
      exact Option.noConfusion h

/-- Witness for C2: a consistent one-pawn input succeeds and derives
`occupied` as the union. -/
theorem from_bitboards_contract_witness :
    Board.from_bitboards (⟨{0}, ∅, ∅, ∅, ∅, ∅⟩ : ByRole Bitboard)
        (⟨∅, {0}⟩ : ByColor Bitboard)
        = some { by_role := ⟨{0}, ∅, ∅, ∅, ∅, ∅⟩, by_color := ⟨∅, {0}⟩,
                 occupied := {0} } ∧
      (Board.mk ⟨{0}, ∅, ∅, ∅, ∅, ∅⟩ ⟨∅, {0}⟩ {0}).occupied
        = ByRole.union6 ⟨{0}, ∅, ∅, ∅, ∅, ∅⟩ :=
  ⟨by decide,
    ((from_bitboards_contract (⟨{0}, ∅, ∅, ∅, ∅, ∅⟩ : ByRole Bitboard)
        (⟨∅, {0}⟩ : ByColor Bitboard)).2.1 _ (by decide)).1⟩

/-! ## C8: the extraction sequence -/

/-- Iterator over the pieces of a `Board` (`IntoIter`). -/
structure IntoIter where
  inner : Board
deriving DecidableEq

/-- `Iterator::next` for `IntoIter`: pop from the front. -/
def IntoIter.next (it : IntoIter) : Option (Square × Piece) × IntoIter :=
  match it.inner.pop_front with
  | (r, b) => (r, ⟨b⟩)

/-- `DoubleEndedIterator::next_back` for `IntoIter`: pop from the back. -/
def IntoIter.nextBack (it : IntoIter) : Option (Square × Piece) × IntoIter :=
  match it.inner.pop_back with
  | (r, b) => (r, ⟨b⟩)

/-- `ExactSizeIterator::len` for `IntoIter`. -/
def IntoIter.len (it : IntoIter) : Nat := it.inner.occupied.count

/-- Drain the iterator making one call per entry of `dirs` (`true` drains from
the front, `false` from the back), collecting the yielded pairs. -/
def IntoIter.drain (dirs : List Bool) (it : IntoIter) : List (Square × Piece) :=
  match dirs with
  | [] => []
  | d :: ds =>
    match (if d then it.next else it.nextBack) with
    | (none, it') => IntoIter.drain ds it'
    | (some x, it') => x :: IntoIter.drain ds it'

theorem Board.pop_front_empty (b : Board) (h : b.occupied = ∅) :
    b.pop_front = (none, b) := by
  unfold Board.pop_front Bitboard.first
  rw [dif_neg (by rw [h]; exact Finset.not_nonempty_empty)]

theorem Board.pop_back_empty (b : Board) (h : b.occupied = ∅) :
    b.pop_back = (none, b) := by
  unfold Board.pop_back Bitboard.last
  rw [dif_neg (by rw [h]; exact Finset.not_nonempty_empty)]

theorem Board.pop_front_spec (b : Board) (hb : b.Valid) (h : b.occupied.Nonempty) :
    ∃ p : Piece, ∃ b2 : Board,
      b.pop_front = (some (b.occupied.min' h, p), b2) ∧ b2.Valid ∧
        b2.occupied = b.occupied.erase (b.occupied.min' h) := by
  obtain ⟨p, hp⟩ := Board.piece_at_isSome hb (Finset.min'_mem _ h)
  have hrm : b.remove_piece_at (b.occupied.min' h)
      = (some p, (b.remove_piece_at (b.occupied.min' h)).2) := by
    have h1 : (b.remove_piece_at (b.occupied.min' h)).1 = some p := by
      rw [Board.remove_fst]
      exact hp
    rw [← h1]
  refine ⟨p, (b.remove_piece_at (b.occupied.min' h)).2, ?_,
    Board.remove_valid _ _ hb, ?_⟩
  · unfold Board.pop_front Bitboard.first
    rw [dif_pos h]
    show (match b.remove_piece_at (b.occupied.min' h) with
          | (none, b') => (none, b')
          | (some q, b') => (some (b.occupied.min' h, q), b')) = _
    rw [hrm]
  · apply Finset.ext
    intro t
    rw [Board.remove_some_occupied hp, Finset.mem_erase]

theorem Board.pop_back_spec (b : Board) (hb : b.Valid) (h : b.occupied.Nonempty) :
    ∃ p : Piece, ∃ b2 : Board,
      b.pop_back = (some (b.occupied.max' h, p), b2) ∧ b2.Valid ∧
        b2.occupied = b.occupied.erase (b.occupied.max' h) := by
  obtain ⟨p, hp⟩ := Board.piece_at_isSome hb (Finset.max'_mem _ h)
  have hrm : b.remove_piece_at (b.occupied.max' h)
      = (some p, (b.remove_piece_at (b.occupied.max' h)).2) := by
    have h1 : (b.remove_piece_at (b.occupied.max' h)).1 = some p := by
      rw [Board.remove_fst]
      exact hp
    rw [← h1]
  refine ⟨p, (b.remove_piece_at (b.occupied.max' h)).2, ?_,
    Board.remove_valid _ _ hb, ?_⟩
  · unfold Board.pop_back Bitboard.last
    rw [dif_pos h]
    show (match b.remove_piece_at (b.occupied.max' h) with
          | (none, b') => (none, b')
          | (some q, b') => (some (b.occupied.max' h, q), b')) = _
    rw [hrm]
  · apply Finset.ext
    intro t
    rw [Board.remove_some_occupied hp, Finset.mem_erase]

/-- One drain step from either end of a valid nonempty board yields an
occupied square and removes exactly it. -/
theorem popDir_spec (d : Bool) (b : Board) (hb : b.Valid) (h : b.occupied.Nonempty) :
    ∃ e : Square, ∃ p : Piece, ∃ b2 : Board,
      (if d then IntoIter.next ⟨b⟩ else IntoIter.nextBack ⟨b⟩) = (some (e, p), ⟨b2⟩) ∧
        e ∈ b.occupied ∧ b2.Valid ∧ b2.occupied = b.occupied.erase e := by
  cases d with
  | true =>
    obtain ⟨p, b2, hpop, hv, ho⟩ := Board.pop_front_spec b hb h
    refine ⟨b.occupied.min' h, p, b2, ?_, Finset.min'_mem _ h, hv, ho⟩
    simp only [if_true, IntoIter.next, hpop]
  | false =>
    obtain ⟨p, b2, hpop, hv, ho⟩ := Board.pop_back_spec b hb h
    refine ⟨b.occupied.max' h, p, b2, ?_, Finset.max'_mem _ h, hv, ho⟩
    simp only [IntoIter.nextBack, hpop]
    rfl

theorem IntoIter.drain_cons_some {d : Bool} (ds : List Bool) {b b2 : Board} {e : Square}
    {p : Piece}
    (h : (if d then IntoIter.next ⟨b⟩ else IntoIter.nextBack ⟨b⟩) = (some (e, p), ⟨b2⟩)) :
    IntoIter.drain (d :: ds) ⟨b⟩ = (e, p) :: IntoIter.drain ds ⟨b2⟩ := by
  rw [IntoIter.drain, h]

theorem IntoIter.drain_cons_empty (d : Bool) (ds : List Bool) {b : Board}
    (h : b.occupied = ∅) : IntoIter.drain (d :: ds) ⟨b⟩ = IntoIter.drain ds ⟨b⟩ := by
  simp only [IntoIter.drain, IntoIter.next, IntoIter.nextBack,
    Board.pop_front_empty b h, Board.pop_back_empty b h]
  cases d <;> rfl

/-- Any mixed drain of a valid board yields pairwise distinct occupied
squares; a drain long enough to exhaust the board yields exactly
`occupied.card` pairs covering `occupied` exactly. -/
theorem IntoIter.drain_spec (dirs : List Bool) (b : Board) (hb : b.Valid) :
    (∀ x ∈ IntoIter.drain dirs ⟨b⟩, x.1 ∈ b.occupied) ∧
    ((IntoIter.drain dirs ⟨b⟩).map Prod.fst).Nodup ∧
    (b.occupied.card ≤ dirs.length →
      (IntoIter.drain dirs ⟨b⟩).length = b.occupied.card ∧
      ((IntoIter.drain dirs ⟨b⟩).map Prod.fst).toFinset = b.occupied) := by
  induction dirs generalizing b with
  | nil =>
    refine ⟨?_, ?_, ?_⟩
    · intro x hx
      simp [IntoIter.drain] at hx
    · simp [IntoIter.drain]
    · intro hle
      have hc : b.occupied.card = 0 := Nat.le_zero.mp hle
      have he : b.occupied = ∅ := Finset.card_eq_zero.mp hc
      exact ⟨by simp [IntoIter.drain, hc], by simp [IntoIter.drain, he]⟩
  | cons d ds ih =>
    by_cases hne : b.occupied.Nonempty
    · obtain ⟨e, p, b2, hstep, hmem, hv2, ho2⟩ := popDir_spec d b hb hne
      have hdrain := IntoIter.drain_cons_some ds hstep
      obtain ⟨ih1, ih2, ih3⟩ := ih b2 hv2
      refine ⟨?_, ?_, ?_⟩
      · intro x hx
        rw [hdrain] at hx
        rcases List.mem_cons.mp hx with rfl | hx'
        · exact hmem
        · have hx2 := ih1 x hx'
          rw [ho2] at hx2
          exact Finset.mem_of_mem_erase hx2
      · rw [hdrain]
        simp only [List.map_cons, List.nodup_cons]
        refine ⟨?_, ih2⟩
        intro hcontra
        obtain ⟨x, hx, hx1⟩ := List.mem_map.mp hcontra
        have hx2 := ih1 x hx
        rw [ho2] at hx2
        exact (Finset.ne_of_mem_erase hx2) hx1
      · intro hle
        rw [hdrain]
        have hcard2 : b2.occupied.card = b.occupied.card - 1 := by
          rw [ho2]
          exact Finset.card_erase_of_mem hmem
        have hpos : 1 ≤ b.occupied.card := Finset.card_pos.mpr hne
        have hlen' : (d :: ds).length = ds.length + 1 := rfl
        have hle2 : b2.occupied.card ≤ ds.length := by
          rw [hlen'] at hle
          omega
        obtain ⟨hlen, hfin⟩ := ih3 hle2
        constructor
        · simp only [List.length_cons, hlen, hcard2]
          omega
        · simp only [List.map_cons, List.toFinset_cons, hfin, ho2]
          exact Finset.insert_erase hmem
    · have he : b.occupied = ∅ := Finset.not_nonempty_iff_eq_empty.mp hne
      have hdrain := IntoIter.drain_cons_empty d ds he
      obtain ⟨ih1, ih2, ih3⟩ := ih b hb
      rw [hdrain]
      have hc : b.occupied.card = 0 := by
        rw [he]
        rfl
      exact ⟨ih1, ih2, fun _ => ih3 (by omega)⟩

/-- A pure front drain yields strictly increasing squares. -/
theorem IntoIter.drain_front_sorted (k : Nat) (b : Board) (hb : b.Valid) :
    ((IntoIter.drain (List.replicate k true) ⟨b⟩).map Prod.fst).Sorted (· < ·) := by
  induction k generalizing b with
  | zero => simp [IntoIter.drain]
  | succ n ih =>
    rw [List.replicate_succ]
    by_cases hne : b.occupied.Nonempty
    · obtain ⟨p, b2, hpop, hv2, ho2⟩ := Board.pop_front_spec b hb hne
      have hstep : (if true then IntoIter.next ⟨b⟩ else IntoIter.nextBack ⟨b⟩)
          = (some (b.occupied.min' hne, p), ⟨b2⟩) := by
        simp only [if_true, IntoIter.next, hpop]
      rw [IntoIter.drain_cons_some (List.replicate n true) hstep]
      simp only [List.map_cons]
      rw [List.sorted_cons]
      constructor
      · intro y hy
        obtain ⟨x, hx, rfl⟩ := List.mem_map.mp hy
        have hx2 := (IntoIter.drain_spec (List.replicate n true) b2 hv2).1 x hx
        rw [ho2, Finset.mem_erase] at hx2
        exact lt_of_le_of_ne (Finset.min'_le _ _ hx2.2) (Ne.symm hx2.1)
      · exact ih b2 hv2
    · rw [IntoIter.drain_cons_empty true (List.replicate n true)
        (Finset.not_nonempty_iff_eq_empty.mp hne)]
      exact ih b hb

/-- A pure back drain yields strictly decreasing squares. -/
theorem IntoIter.drain_back_sorted (k : Nat) (b : Board) (hb : b.Valid) :
    ((IntoIter.drain (List.replicate k false) ⟨b⟩).map Prod.fst).Sorted (· > ·) := by
  induction k generalizing b with
  | zero => simp [IntoIter.drain]
  | succ n ih =>
    rw [List.replicate_succ]
    by_cases hne : b.occupied.Nonempty
    · obtain ⟨p, b2, hpop, hv2, ho2⟩ := Board.pop_back_spec b hb hne
      have hstep : (if false then IntoIter.next ⟨b⟩ else IntoIter.nextBack ⟨b⟩)
          = (some (b.occupied.max' hne, p), ⟨b2⟩) := by
        simp only [IntoIter.nextBack, hpop]
        rfl
      rw [IntoIter.drain_cons_some (List.replicate n false) hstep]
      simp only [List.map_cons]
      rw [List.sorted_cons]
      constructor
      · intro y hy
        obtain ⟨x, hx, rfl⟩ := List.mem_map.mp hy
        have hx2 := (IntoIter.drain_spec (List.replicate n false) b2 hv2).1 x hx
        rw [ho2, Finset.mem_erase] at hx2
        exact lt_of_le_of_ne (Finset.le_max' _ _ hx2.2) hx2.1
      · exact ih b2 hv2
    · rw [IntoIter.drain_cons_empty false (List.replicate n false)
        (Finset.not_nonempty_iff_eq_empty.mp hne)]
      exact ih b hb

/-- C8: the consuming extraction sequence of a valid Board yields pairwise
distinct occupied squares under any mix of front/back draining; a drain of
length at least `card occupied` yields exactly `card occupied` pairs covering
`occupied` with no square repeated or skipped; pure front drains are strictly
increasing, pure back drains strictly decreasing; the reported exact length
equals the population count of `occupied`; and once a front pop yields
absence the board is unchanged and both ends yield absence forever after. -/
theorem extraction_sequence_spec (b : Board) (hb : b.Valid) :
    (∀ dirs : List Bool,
      (∀ x ∈ IntoIter.drain dirs ⟨b⟩, x.1 ∈ b.occupied) ∧
      ((IntoIter.drain dirs ⟨b⟩).map Prod.fst).Nodup ∧
      (b.occupied.card ≤ dirs.length →
        (IntoIter.drain dirs ⟨b⟩).length = b.occupied.card ∧
        ((IntoIter.drain dirs ⟨b⟩).map Prod.fst).toFinset = b.occupied)) ∧
    (∀ k : Nat,
      ((IntoIter.drain (List.replicate k true) ⟨b⟩).map Prod.fst).Sorted (· < ·)) ∧
    (∀ k : Nat,
      ((IntoIter.drain (List.replicate k false) ⟨b⟩).map Prod.fst).Sorted (· > ·)) ∧
    IntoIter.len ⟨b⟩ = b.occupied.count ∧
    (b.pop_front.1 = none → b.pop_front = (none, b) ∧ b.pop_back = (none, b)) := by
  refine ⟨fun dirs => IntoIter.drain_spec dirs b hb,
    fun k => IntoIter.drain_front_sorted k b hb,
    fun k => IntoIter.drain_back_sorted k b hb, rfl, ?_⟩
  intro hnone
  have he : b.occupied = ∅ := by
    by_contra hne
    obtain ⟨p, b2, hpop, -, -⟩ :=
      Board.pop_front_spec b hb (Finset.nonempty_iff_ne_empty.mpr hne)
    rw [hpop] at hnone
    exact Option.noConfusion hnone
  exact ⟨Board.pop_front_empty b he, Board.pop_back_empty b he⟩

/-- Witness for C8: a two-piece board drained front, back, front yields
exactly two pairs. -/
theorem extraction_sequence_spec_witness :
    (Board.empty.extend
        [((5 : Fin 64), ⟨.white, .pawn⟩), ((10 : Fin 64), ⟨.black, .king⟩)]).Valid ∧
      (IntoIter.drain [true, false, true]
          ⟨Board.empty.extend
            [((5 : Fin 64), ⟨.white, .pawn⟩), ((10 : Fin 64), ⟨.black, .king⟩)]⟩).length
        = (Board.empty.extend
            [((5 : Fin 64), ⟨.white, .pawn⟩), ((10 : Fin 64), ⟨.black, .king⟩)]).occupied.card :=
  ⟨by decide,
    (((extraction_sequence_spec _ (by decide)).1 [true, false, true]).2.2 (by decide)).1⟩
